import Mathlib

/-!
Shallow embedding of `src/py/ml_defarr.py` (repository `fagan2888/mules`).

The module's single function `ml_defarr(defarr, xr, yr, nx, ny, cells, stars,
scheme, bins)` fills the caller-provided array `defarr` (shape `nx × ny × 2`)
with deflection angles obtained from the external pointwise evaluator
`ml_defang(x, y, cells, stars, None)`, using one of three schemes:

* scheme 1: direct double loop over the grid;
* scheme 2: block-wise bilinear interpolation from block corners, with corner
  values reused from the already-filled array;
* scheme 3: coarse grid evaluation followed by `scipy.interpolate.interp2d`
  fits that are evaluated on the fine coordinate sequences.

External collaborators are parameters of the embedding: the adapter
`ml_defang` (closed over `cells, stars`) is a function `ℝ → ℝ → ℝ × ℝ`, and
`scipy.interpolate.interp2d` is a function from fit data to an evaluator.
Python floats are modelled as real numbers, the numpy array as a total map
from index pairs, and in-place mutation as explicit state passing.  The
embedding also records the list of adapter invocations and the list of
interpolant fits performed, so that claims about which calls happen can be
stated.
-/

namespace Mules

noncomputable section

/-- A deflection field: contents of the `nx × ny × 2` numpy array `defarr`,
as a total map from the two grid indices to the 2-vector on the last axis. -/
abbrev Field : Type := ℕ → ℕ → ℝ × ℝ

/-- The pointwise evaluator adapter `ml_defang`, closed over `cells, stars`
(external contract): image-plane coordinates to a deflection 2-vector. -/
abbrev Defang : Type := ℝ → ℝ → ℝ × ℝ

/-- In-place assignment `defarr[a,b,:] = v` of a single cell. -/
def updateCell (fld : Field) (a b : ℕ) (v : ℝ × ℝ) : Field :=
  fun i j => if i = a ∧ j = b then v else fld i j

/-- The all-zero field, `np.zeros([_,_,2])`. -/
def zeroField : Field := fun _ _ => (0, 0)

/-- The grid-index-to-coordinate mapping of schemes 1 and 3 (lines 21-22 and
129-130): `xr[0] + (xr[1]-xr[0])*float(i)/float(n)`. -/
def sampleCoord (a b : ℝ) (i n : ℕ) : ℝ :=
  a + (b - a) * ((i : ℝ) / (n : ℝ))

/-- Body of the scheme-1 inner loop (lines 20-24): compute `ximg`, `yimg` and
assign `defarr[iximg,iyimg,:] = ml_defang(ximg,yimg,cells,stars,None)`,
recording the adapter call. -/
def scheme1Body (F : Defang) (xr yr : ℝ × ℝ) (nx ny : ℕ) (iximg iyimg : ℕ)
    (s : Field × List (ℝ × ℝ)) : Field × List (ℝ × ℝ) :=
  let ximg := sampleCoord xr.1 xr.2 iximg nx
  let yimg := sampleCoord yr.1 yr.2 iyimg ny
  (updateCell s.1 iximg iyimg (F ximg yimg), s.2 ++ [(ximg, yimg)])

/-- Scheme 1 (lines 13-27): loop directly through the 2D image plane,
`for iximg in range(nx): for iyimg in range(ny): ...`.  Returns the final
array contents together with the list of adapter calls made, in order. -/
def scheme1Run (F : Defang) (xr yr : ℝ × ℝ) (nx ny : ℕ) (defarr : Field) :
    Field × List (ℝ × ℝ) :=
  (List.range nx).foldl
    (fun s iximg =>
      (List.range ny).foldl
        (fun s iyimg => scheme1Body F xr yr nx ny iximg iyimg s) s)
    (defarr, [])

/-- State threaded through the scheme-2 block loops: the array contents and
the adapter calls made so far. -/
structure S2State where
  fld : Field
  calls : List (ℝ × ℝ)

/-- Element `k` of `xind = np.arange(bp1*bp1) % bp1` (line 39). -/
def xind (bp1 k : ℕ) : ℕ := k % bp1

/-- Element `k` of `yind = np.arange(bp1*bp1) / bp1` (line 40, Python 2
integer division).
element `k`. -/
def yind (bp1 k : ℕ) : ℕ := k / bp1

/-- Element `k` of `xfrac = xind/float(bins)` (line 41): precomputed once,
before the block loops, as a function of `bins` only. -/
def xfrac (bins bp1 k : ℕ) : ℝ := (xind bp1 k : ℝ) / (bins : ℝ)

/-- Element `k` of `yfrac = yind/float(bins)` (line 42). -/
def yfrac (bins bp1 k : ℕ) : ℝ := (yind bp1 k : ℝ) / (bins : ℝ)

/-- Corner coordinate of scheme 2 (lines 63-66, 76-79):
`x0 + ddx*float(index)`. -/
def xcoord (x0 ddx : ℝ) (i : ℕ) : ℝ := x0 + ddx * (i : ℝ)

/-- The bilinear interpolation formula of lines 102-107, one component:
`defll*(1-xfrac)*(1-yfrac) + deflr*xfrac*(1-yfrac) + deful*(1-xfrac)*yfrac
 + defur*xfrac*yfrac`. -/
def bilin (vll vlr vul vur xf yf : ℝ) : ℝ :=
  vll * (1 - xf) * (1 - yf) + vlr * xf * (1 - yf) +
    vul * (1 - xf) * yf + vur * xf * yf

/-- Corner value `defur` (line 83): the upper-right corner is always
evaluated directly
via the adapter. -/
def cornerUR (F : Defang) (x0 y0 ddx ddy : ℝ) (bins icx icy : ℕ) : ℝ × ℝ :=
  F (xcoord x0 ddx (icx * bins + bins)) (xcoord y0 ddy (icy * bins + bins))

/-- Corner value `deful` (lines 85-88): evaluated directly only when
`icx == 0`,
otherwise read from the already-filled array. -/
def cornerUL (F : Defang) (x0 y0 ddx ddy : ℝ) (bins icx icy : ℕ)
    (s : S2State) : ℝ × ℝ :=
  if icx = 0 then
    F (xcoord x0 ddx (icx * bins)) (xcoord y0 ddy (icy * bins + bins))
  else s.fld (icx * bins) (icy * bins + bins)

/-- Corner value `deflr` (lines 90-93): evaluated directly only when
`icy == 0`,
otherwise read from the already-filled array. -/
def cornerLR (F : Defang) (x0 y0 ddx ddy : ℝ) (bins icx icy : ℕ)
    (s : S2State) : ℝ × ℝ :=
  if icy = 0 then
    F (xcoord x0 ddx (icx * bins + bins)) (xcoord y0 ddy (icy * bins))
  else s.fld (icx * bins + bins) (icy * bins)

/-- Corner value `defll` (lines 95-98): evaluated directly only when
`icx == 0` and
`icy == 0`, otherwise read from the already-filled array. -/
def cornerLL (F : Defang) (x0 y0 ddx ddy : ℝ) (bins icx icy : ℕ)
    (s : S2State) : ℝ × ℝ :=
  if icx = 0 ∧ icy = 0 then
    F (xcoord x0 ddx (icx * bins)) (xcoord y0 ddy (icy * bins))
  else s.fld (icx * bins) (icy * bins)

/-- The adapter calls made while processing one block, in source order
(lines 83-98): upper-right always, then upper-left / lower-right /
lower-left only in the first-column / first-row / first-block cases. -/
def blockCalls (x0 y0 ddx ddy : ℝ) (bins icx icy : ℕ) : List (ℝ × ℝ) :=
  [(xcoord x0 ddx (icx * bins + bins), xcoord y0 ddy (icy * bins + bins))]
    ++ (if icx = 0 then
          [(xcoord x0 ddx (icx * bins), xcoord y0 ddy (icy * bins + bins))]
        else [])
    ++ (if icy = 0 then
          [(xcoord x0 ddx (icx * bins + bins), xcoord y0 ddy (icy * bins))]
        else [])
    ++ (if icx = 0 ∧ icy = 0 then
          [(xcoord x0 ddx (icx * bins), xcoord y0 ddy (icy * bins))]
        else [])

/-- The fancy-indexed assignment of lines 102-107:
`defarr[xind+iximgll, yind+iyimgll, c] = bilin(...)` for every element `k`
of the flattened `(bins+1)²` offset arrays, both components. -/
def blockWrite (bins : ℕ) (vll vlr vul vur : ℝ × ℝ) (ix0 iy0 : ℕ)
    (fld : Field) : Field :=
  let bp1 := bins + 1
  (List.range (bp1 * bp1)).foldl
    (fun f k =>
      updateCell f (xind bp1 k + ix0) (yind bp1 k + iy0)
        (bilin vll.1 vlr.1 vul.1 vur.1 (xfrac bins bp1 k) (yfrac bins bp1 k),
          bilin vll.2 vlr.2 vul.2 vur.2 (xfrac bins bp1 k)
            (yfrac bins bp1 k)))
    fld

/-- Processing of one block `(icx, icy)` (lines 57-107): obtain the four
corner values (fresh or reused), then bilinearly interpolate the whole
block, corners and edges included. -/
def blockStep (F : Defang) (x0 y0 ddx ddy : ℝ) (bins : ℕ) (s : S2State)
    (icx icy : ℕ) : S2State :=
  ⟨blockWrite bins (cornerLL F x0 y0 ddx ddy bins icx icy s)
      (cornerLR F x0 y0 ddx ddy bins icx icy s)
      (cornerUL F x0 y0 ddx ddy bins icx icy s)
      (cornerUR F x0 y0 ddx ddy bins icx icy)
      (icx * bins) (icy * bins) s.fld,
    s.calls ++ blockCalls x0 y0 ddx ddy bins icx icy⟩

/-- The blocks of scheme 2 in processing order: `icx` outer, `icy` inner
(lines 53, 68). -/
def blockList (ncx ncy : ℕ) : List (ℕ × ℕ) :=
  (List.range ncx).flatMap fun icx =>
    (List.range ncy).map fun icy => (icx, icy)

/-- The blocks processed strictly before block `(icx, icy)` in that order:
all blocks of earlier columns, then the earlier blocks of column `icx`. -/
def blocksBefore (ncy icx icy : ℕ) : List (ℕ × ℕ) :=
  ((List.range icx).flatMap fun a =>
      (List.range ncy).map fun b => (a, b))
    ++ ((List.range icy).map fun b => (icx, b))

/-- Scheme 2 (lines 30-110): `ncx = (nx-1)/bins` by `ncy = (ny-1)/bins`
blocks (integer division), `ddx = (x1-x0)/nx`, `ddy = (y1-y0)/ny`, blocks
processed in order. -/
def scheme2Run (F : Defang) (xr yr : ℝ × ℝ) (nx ny bins : ℕ)
    (defarr : Field) : S2State :=
  let ncx := (nx - 1) / bins
  let ncy := (ny - 1) / bins
  let ddx := (xr.2 - xr.1) / (nx : ℝ)
  let ddy := (yr.2 - yr.1) / (ny : ℝ)
  (blockList ncx ncy).foldl
    (fun s b => blockStep F xr.1 yr.1 ddx ddy bins s b.1 b.2)
    ⟨defarr, []⟩

/-- The intermediate state of the scheme-2 run just before block
`(icx, icy)` is processed. -/
def scheme2Upto (F : Defang) (xr yr : ℝ × ℝ) (nx ny bins : ℕ)
    (defarr : Field) (icx icy : ℕ) : S2State :=
  let ncy := (ny - 1) / bins
  let ddx := (xr.2 - xr.1) / (nx : ℝ)
  let ddy := (yr.2 - yr.1) / (ny : ℝ)
  (blocksBefore ncy icx icy).foldl
    (fun s b => blockStep F xr.1 yr.1 ddx ddy bins s b.1 b.2)
    ⟨defarr, []⟩

/-- The four grid corners of block `(icx, icy)`, in block-index units:
lower-left, lower-right, upper-left, upper-right. -/
def corners (icx icy : ℕ) : List (ℕ × ℕ) :=
  [(icx, icy), (icx + 1, icy), (icx, icy + 1), (icx + 1, icy + 1)]

/-- The block-corner cell `(a*bins, b*bins)` holds exactly the fresh
adapter value for its own coordinates. -/
def CornerFresh (F : Defang) (x0 y0 ddx ddy : ℝ) (bins : ℕ) (s : S2State)
    (a b : ℕ) : Prop :=
  s.fld (a * bins) (b * bins) =
    F (xcoord x0 ddx (a * bins)) (xcoord y0 ddy (b * bins))

/-- Invariant of the scheme-2 sweep: every corner of every block processed
strictly before `(icx, icy)` (in the x-major, y-minor order) is fresh. -/
def Inv (F : Defang) (x0 y0 ddx ddy : ℝ) (bins ncy icx icy : ℕ)
    (s : S2State) : Prop :=
  ∀ p q a b : ℕ, (p < icx ∨ (p = icx ∧ q < icy)) → q < ncy →
    (a, b) ∈ corners p q → CornerFresh F x0 y0 ddx ddy bins s a b

/-- The blocks processed from `(icx, icy)` onwards: the rest of column
`icx`, then the remaining full columns. -/
def blocksFrom (ncx ncy icx icy : ℕ) : List (ℕ × ℕ) :=
  ((List.range (ncy - icy)).map fun b => (icx, icy + b))
    ++ ((List.range (ncx - (icx + 1))).flatMap fun a =>
        (List.range ncy).map fun b => (icx + 1 + a, b))

/-! ### Scheme 3 (lines 112-186) and the `ml_defarr` entry point -/

/-- Coordinate of `np.mgrid[a:b:complex(0,n)]` along its varying axis
(lines 141, 156):
an inclusive linspace of `n` points, sample `i` at `a + (b-a)*i/(n-1)`
(for a single point numpy yields `a`; real division by zero gives the same
here). -/
def mgridCoord (a b : ℝ) (n i : ℕ) : ℝ :=
  a + (b - a) * (i : ℝ) / ((n : ℝ) - 1)

/-- The x-coordinates of the hard-coded demo grid
`np.mgrid[-45:45:10j, -18:18:10j]` (line 156). -/
def demoX (i : ℕ) : ℝ := mgridCoord (-45) 45 10 i

/-- The y-coordinates of the hard-coded demo grid (line 156). -/
def demoY (j : ℕ) : ℝ := mgridCoord (-18) 18 10 j

/-- The hard-coded demo function `func` of lines 152-154:
`(x+y)*np.exp(-(x**2 + y**2)/(2*10.**2))`. -/
def funcDemo (x y : ℝ) : ℝ :=
  (x + y) * Real.exp (-(x ^ 2 + y ^ 2) / (2 * 10 ^ 2))

/-- Demo values `fvals = func(x,y)` on the demo grid (line 157). -/
def fvalsDemo (i j : ℕ) : ℝ := funcDemo (demoX i) (demoY j)

/-- The fine evaluation coordinates of lines 149-150:
`np.arange(a, b, (b-a)/float(n))`, sample `k` at `a + (b-a)/n * k`. -/
def fineCoord (a b : ℝ) (n k : ℕ) : ℝ :=
  a + (b - a) / (n : ℝ) * (k : ℝ)

/-- The data handed to one `scipy.interpolate.interp2d` fit: coordinate
arrays, value array, and the `kind` string. -/
structure Fit where
  xs : ℕ → ℕ → ℝ
  ys : ℕ → ℕ → ℝ
  z : ℕ → ℕ → ℝ
  kind : String

/-- The external `scipy.interpolate.interp2d` collaborator, as a parameter:
fit data to an evaluator on coordinates. -/
abbrev Interp2d : Type := Fit → ℝ → ℝ → ℝ

/-- The errors `ml_defarr` reports (the line-189 message for an
unrecognized scheme). -/
inductive MLError where
  | UnsupportedScheme

/-- Result of one `ml_defarr` call: the final contents of the
caller-provided (in-place mutated) array, the adapter calls made, the
Python return value, the reported error if any, and the `interp2d` fits
performed, in order. -/
structure MLResult where
  defarr : Field
  calls : List (ℝ × ℝ)
  retval : Option Field
  err : Option MLError
  fits : List Fit

/-- Scheme 3 (lines 112-186): evaluate a coarse `nx/bins × ny/bins` grid
with the same loop and half-open coordinate rule as scheme 1 (lines
124-132, into `np.zeros`), then fit three interpolants: `newfunc` (linear,
line 172) to the demo values `fvals` on the demo grid; `defxint` (cubic,
line 176) to the demo values `fvals` on the coarse `mgrid` coordinates
`xc, yc` — line 175, which would fit `coarse[:,:,0]`, is commented out —
and `defyint` (cubic, line 178) to `coarse[:,:,1]` on `xc, yc`.  Finally
lines 181-183 assign `defarr[:,:,c] = defint(ximg, yimg)`: the `interp2d`
call returns an array of shape `(len(yimg), len(ximg))`, so cell `(k, l)`
receives the evaluation at `(ximg[l], yimg[k])` (the transpose; the
assignment only shape-checks when `nx = ny`). -/
def scheme3Run (interp : Interp2d) (F : Defang) (xr yr : ℝ × ℝ)
    (nx ny bins : ℕ) (defarr : Field) : MLResult :=
  let cnx := nx / bins
  let cny := ny / bins
  let cr := scheme1Run F xr yr cnx cny zeroField
  let coarse := cr.1
  let xc : ℕ → ℕ → ℝ := fun i _ => mgridCoord xr.1 xr.2 cnx i
  let yc : ℕ → ℕ → ℝ := fun _ j => mgridCoord yr.1 yr.2 cny j
  let x : ℕ → ℕ → ℝ := fun i _ => demoX i
  let y : ℕ → ℕ → ℝ := fun _ j => demoY j
  let fvals : ℕ → ℕ → ℝ := fun i j => fvalsDemo i j
  let defxint := interp ⟨xc, yc, fvals, "cubic"⟩
  let defyint := interp ⟨xc, yc, fun i j => (coarse i j).2, "cubic"⟩
  let fld : Field := fun k l =>
    if k < nx ∧ l < ny then
      (defxint (fineCoord xr.1 xr.2 nx l) (fineCoord yr.1 yr.2 ny k),
        defyint (fineCoord xr.1 xr.2 nx l) (fineCoord yr.1 yr.2 ny k))
    else defarr k l
  ⟨fld, cr.2, none, none,
    [⟨x, y, fvals, "linear"⟩, ⟨xc, yc, fvals, "cubic"⟩,
      ⟨xc, yc, fun i j => (coarse i j).2, "cubic"⟩]⟩

/-- The entry point `ml_defarr(defarr, xr, yr, nx, ny, cells, stars,
scheme=None, bins=None)` (lines 5-190): `scheme` defaults to 1 (line 8),
`bins` defaults to 64 inside schemes 2 and 3 (lines 33, 118); every branch
ends in a bare `return`, so the Python return value is `None` and results
are delivered by mutating `defarr` in place; an unrecognized scheme prints
the line-189 message and returns without touching anything. -/
def ml_defarr (interp : Interp2d) (F : Defang) (defarr : Field)
    (xr yr : ℝ × ℝ) (nx ny : ℕ) (scheme : Option ℤ) (bins : Option ℕ) :
    MLResult :=
  let scheme := scheme.getD 1
  if scheme = 1 then
    let r := scheme1Run F xr yr nx ny defarr
    ⟨r.1, r.2, none, none, []⟩
  else if scheme = 2 then
    let bins := bins.getD 64
    let s := scheme2Run F xr yr nx ny bins defarr
    ⟨s.fld, s.calls, none, none, []⟩
  else if scheme = 3 then
    let bins := bins.getD 64
    scheme3Run interp F xr yr nx ny bins defarr
  else
    ⟨defarr, [], none, some MLError.UnsupportedScheme, []⟩

/-! ### Lemmas and claim theorems -/

/-- One scheme-1 assignment changes exactly the cell `(iximg, iyimg)`. -/
lemma scheme1Body_fld (F : Defang) (xr yr : ℝ × ℝ) (nx ny iximg iyimg : ℕ)
    (s : Field × List (ℝ × ℝ)) (i j : ℕ) :
    (scheme1Body F xr yr nx ny iximg iyimg s).1 i j =
      if i = iximg ∧ j = iyimg then
        F (sampleCoord xr.1 xr.2 iximg nx) (sampleCoord yr.1 yr.2 iyimg ny)
      else s.1 i j := by
  simp [scheme1Body, updateCell]

/-- The scheme-1 inner loop over `m` columns writes row `iximg` at all
`j < m` and touches nothing else. -/
lemma scheme1_inner_fld (F : Defang) (xr yr : ℝ × ℝ) (nx ny iximg : ℕ)
    (m : ℕ) (s : Field × List (ℝ × ℝ)) (i j : ℕ) :
    ((List.range m).foldl
        (fun s iyimg => scheme1Body F xr yr nx ny iximg iyimg s) s).1 i j =
      if i = iximg ∧ j < m then
        F (sampleCoord xr.1 xr.2 iximg nx) (sampleCoord yr.1 yr.2 j ny)
      else s.1 i j := by
  induction m generalizing s with
  | zero => simp
  | succ n ih =>
    rw [List.range_succ, List.foldl_append, List.foldl_cons, List.foldl_nil]
    rw [scheme1Body_fld, ih]
    by_cases hi : i = iximg
    · subst hi
      by_cases hj : j = n
      · subst hj
        simp
      · by_cases hj2 : j < n
        · simp [hj, hj2, Nat.lt_succ_of_lt hj2]
        · have h3 : ¬ j < n + 1 := by omega
          simp [hj, hj2, h3]
    · simp [hi]

/-- The scheme-1 outer loop over `m` rows, started from an arbitrary state. -/
lemma scheme1_outer_fld (F : Defang) (xr yr : ℝ × ℝ) (nx ny : ℕ) (m : ℕ)
    (s : Field × List (ℝ × ℝ)) (i j : ℕ) :
    ((List.range m).foldl
        (fun s iximg =>
          (List.range ny).foldl
            (fun s iyimg => scheme1Body F xr yr nx ny iximg iyimg s) s) s).1
        i j =
      if i < m ∧ j < ny then
        F (sampleCoord xr.1 xr.2 i nx) (sampleCoord yr.1 yr.2 j ny)
      else s.1 i j := by
  induction m generalizing s with
  | zero => simp
  | succ n ih =>
    rw [List.range_succ, List.foldl_append, List.foldl_cons, List.foldl_nil]
    rw [scheme1_inner_fld, ih]
    by_cases hj : j < ny
    · by_cases hi : i = n
      · subst hi
        simp [hj, Nat.lt_irrefl]
      · by_cases hi2 : i < n
        · simp [hi, hj, hi2, Nat.lt_succ_of_lt hi2]
        · have h3 : ¬ i < n + 1 := by omega
          simp [hi, hj, hi2, h3]
    · simp [hj]

/-- Scheme 1 fills every in-range cell with the adapter value at the cell's
sample coordinates and leaves out-of-range cells untouched. -/
lemma scheme1Run_fld (F : Defang) (xr yr : ℝ × ℝ) (nx ny : ℕ)
    (defarr : Field) (i j : ℕ) :
    (scheme1Run F xr yr nx ny defarr).1 i j =
      if i < nx ∧ j < ny then
        F (sampleCoord xr.1 xr.2 i nx) (sampleCoord yr.1 yr.2 j ny)
      else defarr i j := by
  unfold scheme1Run
  exact scheme1_outer_fld F xr yr nx ny nx (defarr, []) i j

/-- Half-open sampling: for `i < n` the sample coordinate stays strictly
below the right endpoint (and at or above the left endpoint). -/
lemma sampleCoord_half_open (a b : ℝ) (i n : ℕ) (hi : i < n) (hab : a < b) :
    a ≤ sampleCoord a b i n ∧ sampleCoord a b i n < b := by
  have hn : (0 : ℝ) < (n : ℝ) := by
    exact_mod_cast Nat.pos_of_ne_zero (by omega)
  have hin : (i : ℝ) / (n : ℝ) < 1 := by
    rw [div_lt_one hn]
    exact_mod_cast hi
  have hin0 : (0 : ℝ) ≤ (i : ℝ) / (n : ℝ) :=
    div_nonneg (Nat.cast_nonneg i) (le_of_lt hn)
  constructor
  · have : 0 ≤ (b - a) * ((i : ℝ) / (n : ℝ)) :=
      mul_nonneg (by linarith) hin0
    unfold sampleCoord; linarith
  · have : (b - a) * ((i : ℝ) / (n : ℝ)) < (b - a) * 1 :=
      mul_lt_mul_of_pos_left hin (by linarith)
    unfold sampleCoord; linarith

/-- C1: with `scheme=1`, every index pair `(i, j)` in `[0,nx) × [0,ny)` of
the field receives exactly the pointwise adapter value
`ml_defang(x0 + i*(x1-x0)/nx, y0 + j*(y1-y0)/ny, cells, stars)`, and the
coordinate mapping is half-open: when `x0 < x1` (resp. `y0 < y1`) no sample
coordinate reaches the right (resp. top) boundary. -/
theorem c1_scheme1_pointwise (F : Defang) (xr yr : ℝ × ℝ) (nx ny : ℕ)
    (defarr : Field) (i j : ℕ) (hi : i < nx) (hj : j < ny) :
    (scheme1Run F xr yr nx ny defarr).1 i j =
      F (xr.1 + (i : ℝ) * (xr.2 - xr.1) / (nx : ℝ))
        (yr.1 + (j : ℝ) * (yr.2 - yr.1) / (ny : ℝ)) ∧
    (xr.1 < xr.2 → xr.1 + (i : ℝ) * (xr.2 - xr.1) / (nx : ℝ) < xr.2) ∧
    (yr.1 < yr.2 → yr.1 + (j : ℝ) * (yr.2 - yr.1) / (ny : ℝ) < yr.2) := by
  have hx : sampleCoord xr.1 xr.2 i nx =
      xr.1 + (i : ℝ) * (xr.2 - xr.1) / (nx : ℝ) := by
    unfold sampleCoord; ring
  have hy : sampleCoord yr.1 yr.2 j ny =
      yr.1 + (j : ℝ) * (yr.2 - yr.1) / (ny : ℝ) := by
    unfold sampleCoord; ring
  refine ⟨?_, ?_, ?_⟩
  · rw [scheme1Run_fld, if_pos ⟨hi, hj⟩, hx, hy]
  · intro hab
    rw [← hx]
    exact (sampleCoord_half_open xr.1 xr.2 i nx hi hab).2
  · intro hab
    rw [← hy]
    exact (sampleCoord_half_open yr.1 yr.2 j ny hj hab).2

/-- Witness for C1 at a concrete input: `nx = ny = 2`, bounds `(0,2)`,
adapter `(x, y) ↦ (x, y)`, index `(1, 0)`. -/
theorem c1_scheme1_pointwise_witness :
    (1 < 2 ∧ 0 < 2) ∧
    ((scheme1Run (fun x y => (x, y)) (0, 2) (0, 2) 2 2 zeroField).1 1 0 =
        ((0 : ℝ) + (1 : ℝ) * ((2 : ℝ) - 0) / (2 : ℝ),
          (0 : ℝ) + (0 : ℝ) * ((2 : ℝ) - 0) / (2 : ℝ)) ∧
      ((0 : ℝ) < 2 → (0 : ℝ) + (1 : ℝ) * ((2 : ℝ) - 0) / (2 : ℝ) < 2) ∧
      ((0 : ℝ) < 2 → (0 : ℝ) + (0 : ℝ) * ((2 : ℝ) - 0) / (2 : ℝ) < 2)) :=
  ⟨⟨by omega, by omega⟩, by
    simpa using
      c1_scheme1_pointwise (fun x y => (x, y)) (0, 2) (0, 2) 2 2 zeroField 1 0
        (by omega) (by omega)⟩

/-! ### Scheme 2: block-wise bilinear interpolation (lines 30-110) -/

/-- Evaluating the fancy-indexed assignment fold over an arbitrary index
list: a cell hit by some index holds the bilinear value for its own offset,
other cells are untouched. -/
lemma blockWrite_foldl_eval (bins : ℕ) (vll vlr vul vur : ℝ × ℝ)
    (ix0 iy0 : ℕ) (l : List ℕ) (f0 : Field) (i j : ℕ) :
    (l.foldl
        (fun f k =>
          updateCell f (xind (bins + 1) k + ix0) (yind (bins + 1) k + iy0)
            (bilin vll.1 vlr.1 vul.1 vur.1 (xfrac bins (bins + 1) k)
                (yfrac bins (bins + 1) k),
              bilin vll.2 vlr.2 vul.2 vur.2 (xfrac bins (bins + 1) k)
                (yfrac bins (bins + 1) k)))
        f0) i j =
      if ∃ k ∈ l, i = xind (bins + 1) k + ix0 ∧ j = yind (bins + 1) k + iy0
      then
        (bilin vll.1 vlr.1 vul.1 vur.1 (((i - ix0 : ℕ) : ℝ) / (bins : ℝ))
            (((j - iy0 : ℕ) : ℝ) / (bins : ℝ)),
          bilin vll.2 vlr.2 vul.2 vur.2 (((i - ix0 : ℕ) : ℝ) / (bins : ℝ))
            (((j - iy0 : ℕ) : ℝ) / (bins : ℝ)))
      else f0 i j := by
  induction l generalizing f0 with
  | nil => simp
  | cons k l ih =>
    rw [List.foldl_cons, ih]
    by_cases hl : ∃ k' ∈ l,
        i = xind (bins + 1) k' + ix0 ∧ j = yind (bins + 1) k' + iy0
    · rw [if_pos hl, if_pos]
      obtain ⟨k', hk', hm⟩ := hl
      exact ⟨k', List.mem_cons_of_mem k hk', hm⟩
    · rw [if_neg hl]
      by_cases hk : i = xind (bins + 1) k + ix0 ∧ j = yind (bins + 1) k + iy0

      · obtain ⟨hk1, hk2⟩ := hk
        have hx : xind (bins + 1) k = i - ix0 := by omega
        have hy : yind (bins + 1) k = j - iy0 := by omega
        rw [if_pos ⟨k, List.mem_cons_self k l, hk1, hk2⟩]
        simp only [updateCell, xfrac, yfrac]
        rw [if_pos ⟨hk1, hk2⟩, hx, hy]
      · have hne : ¬ ∃ k' ∈ k :: l,
            i = xind (bins + 1) k' + ix0 ∧ j = yind (bins + 1) k' + iy0 := by
          rintro ⟨k', hk', hm⟩
          rcases List.mem_cons.mp hk' with h | h
          · exact hk (h ▸ hm)
          · exact hl ⟨k', h, hm⟩
        rw [if_neg hne]
        simp only [updateCell]
        rw [if_neg]
        intro hc
        exact hk ⟨hc.1, hc.2⟩

/-- The flattened `(bins+1)²` offset enumeration covers exactly the square
block `[ix0, ix0+bins] × [iy0, iy0+bins]`, corners and edges included. -/
lemma blockWrite_region (bins ix0 iy0 i j : ℕ) :
    (∃ k ∈ List.range ((bins + 1) * (bins + 1)),
        i = xind (bins + 1) k + ix0 ∧ j = yind (bins + 1) k + iy0) ↔
      ix0 ≤ i ∧ i ≤ ix0 + bins ∧ iy0 ≤ j ∧ j ≤ iy0 + bins := by
  constructor
  · rintro ⟨k, hk, hi, hj⟩
    rw [List.mem_range] at hk
    have h1 : k % (bins + 1) < bins + 1 := Nat.mod_lt k (Nat.succ_pos bins)
    have h2 : k / (bins + 1) < bins + 1 := Nat.div_lt_of_lt_mul hk
    unfold xind at hi
    unfold yind at hj
    obtain ⟨p, hp⟩ : ∃ p, p = k % (bins + 1) := ⟨_, rfl⟩
    obtain ⟨q, hq⟩ : ∃ q, q = k / (bins + 1) := ⟨_, rfl⟩
    rw [← hp] at h1 hi
    rw [← hq] at h2 hj
    omega
  · rintro ⟨h1, h2, h3, h4⟩
    refine ⟨(i - ix0) + (j - iy0) * (bins + 1), ?_, ?_, ?_⟩
    · rw [List.mem_range]
      have ha : i - ix0 ≤ bins := by omega
      have hb : j - iy0 ≤ bins := by omega
      calc (i - ix0) + (j - iy0) * (bins + 1)
          ≤ bins + bins * (bins + 1) :=
            Nat.add_le_add ha (Nat.mul_le_mul_right _ hb)
        _ < (bins + 1) + bins * (bins + 1) := by omega
        _ = (bins + 1) * (bins + 1) := by ring
    · unfold xind
      rw [Nat.add_mul_mod_self_right, Nat.mod_eq_of_lt (by omega)]
      omega
    · unfold yind
      rw [Nat.add_mul_div_right _ _ (Nat.succ_pos bins),
        Nat.div_eq_of_lt (by omega)]
      omega

/-- Characterization of the block assignment: inside the block the cell
holds the bilinear value at fractional offsets `(i-ix0)/bins, (j-iy0)/bins`;
outside, the array is untouched. -/
lemma blockWrite_eval (bins : ℕ) (vll vlr vul vur : ℝ × ℝ) (ix0 iy0 : ℕ)
    (fld : Field) (i j : ℕ) :
    blockWrite bins vll vlr vul vur ix0 iy0 fld i j =
      if ix0 ≤ i ∧ i ≤ ix0 + bins ∧ iy0 ≤ j ∧ j ≤ iy0 + bins then
        (bilin vll.1 vlr.1 vul.1 vur.1 (((i - ix0 : ℕ) : ℝ) / (bins : ℝ))
            (((j - iy0 : ℕ) : ℝ) / (bins : ℝ)),
          bilin vll.2 vlr.2 vul.2 vur.2 (((i - ix0 : ℕ) : ℝ) / (bins : ℝ))
            (((j - iy0 : ℕ) : ℝ) / (bins : ℝ)))
      else fld i j := by
  unfold blockWrite
  rw [blockWrite_foldl_eval]
  by_cases h : ix0 ≤ i ∧ i ≤ ix0 + bins ∧ iy0 ≤ j ∧ j ≤ iy0 + bins
  · rw [if_pos ((blockWrite_region bins ix0 iy0 i j).mpr h), if_pos h]
  · rw [if_neg (fun hc => h ((blockWrite_region bins ix0 iy0 i j).mp hc)),
      if_neg h]

/-- Bilinear interpolation at the four corner offsets returns the four
corner values exactly. -/
lemma bilin_corners (a b c d : ℝ) :
    bilin a b c d 0 0 = a ∧ bilin a b c d 1 0 = b ∧
      bilin a b c d 0 1 = c ∧ bilin a b c d 1 1 = d := by
  refine ⟨?_, ?_, ?_, ?_⟩ <;> (unfold bilin; ring)

/-- The fractional offset at the near corner is `0`. -/
lemma frac_zero (bins a : ℕ) : ((a - a : ℕ) : ℝ) / (bins : ℝ) = 0 := by
  simp

/-- The fractional offset at the far corner is `1` (for a nonempty block). -/
lemma frac_one (bins : ℕ) (hb : 0 < bins) (a : ℕ) :
    ((a + bins - a : ℕ) : ℝ) / (bins : ℝ) = 1 := by
  rw [Nat.add_sub_cancel_left]
  exact div_self (by exact_mod_cast Nat.pos_iff_ne_zero.mp hb)

/-- After processing a block, each of its four corner cells holds exactly
the corner value that was used for the interpolation. -/
lemma blockStep_corner_fld (F : Defang) (x0 y0 ddx ddy : ℝ) (bins : ℕ)
    (hb : 0 < bins) (s : S2State) (icx icy : ℕ) :
    (blockStep F x0 y0 ddx ddy bins s icx icy).fld (icx * bins)
        (icy * bins) = cornerLL F x0 y0 ddx ddy bins icx icy s ∧
    (blockStep F x0 y0 ddx ddy bins s icx icy).fld (icx * bins + bins)
        (icy * bins) = cornerLR F x0 y0 ddx ddy bins icx icy s ∧
    (blockStep F x0 y0 ddx ddy bins s icx icy).fld (icx * bins)
        (icy * bins + bins) = cornerUL F x0 y0 ddx ddy bins icx icy s ∧
    (blockStep F x0 y0 ddx ddy bins s icx icy).fld (icx * bins + bins)
        (icy * bins + bins) = cornerUR F x0 y0 ddx ddy bins icx icy := by
  simp only [blockStep]
  rw [blockWrite_eval, blockWrite_eval, blockWrite_eval, blockWrite_eval]
  rw [if_pos ⟨le_refl _, by omega, le_refl _, by omega⟩,
    if_pos ⟨by omega, by omega, le_refl _, by omega⟩,
    if_pos ⟨le_refl _, by omega, by omega, by omega⟩,
    if_pos ⟨by omega, by omega, by omega, by omega⟩]
  simp only [frac_zero, frac_one bins hb]
  refine ⟨?_, ?_, ?_, ?_⟩
  · rw [(bilin_corners _ _ _ _).1, (bilin_corners _ _ _ _).1]
  · rw [(bilin_corners _ _ _ _).2.1, (bilin_corners _ _ _ _).2.1]
  · rw [(bilin_corners _ _ _ _).2.2.1, (bilin_corners _ _ _ _).2.2.1]
  · rw [(bilin_corners _ _ _ _).2.2.2, (bilin_corners _ _ _ _).2.2.2]

/-- C5: for every block `(icx, icy)` of scheme 2, the adapter is invoked for
the upper-right corner always, for the upper-left corner only when
`icx = 0`, for the lower-right corner only when `icy = 0`, and for the
lower-left corner only when `icx = 0` and `icy = 0` (in source order);
in all other cases the corner value is read from the already-filled field
at the corner's indices instead of being recomputed. -/
theorem c5_scheme2_corner_sources (F : Defang) (x0 y0 ddx ddy : ℝ)
    (bins : ℕ) (hb : 0 < bins) (s : S2State) (icx icy : ℕ) :
    (blockStep F x0 y0 ddx ddy bins s icx icy).calls =
      s.calls ++
        ([(xcoord x0 ddx (icx * bins + bins),
            xcoord y0 ddy (icy * bins + bins))] ++
          (if icx = 0 then
            [(xcoord x0 ddx (icx * bins), xcoord y0 ddy (icy * bins + bins))]
          else []) ++
          (if icy = 0 then
            [(xcoord x0 ddx (icx * bins + bins), xcoord y0 ddy (icy * bins))]
          else []) ++
          (if icx = 0 ∧ icy = 0 then
            [(xcoord x0 ddx (icx * bins), xcoord y0 ddy (icy * bins))]
          else [])) ∧
    (blockStep F x0 y0 ddx ddy bins s icx icy).fld (icx * bins + bins)
        (icy * bins + bins) =
      F (xcoord x0 ddx (icx * bins + bins))
        (xcoord y0 ddy (icy * bins + bins)) ∧
    (icx ≠ 0 →
      cornerUL F x0 y0 ddx ddy bins icx icy s =
        s.fld (icx * bins) (icy * bins + bins)) ∧
    (icy ≠ 0 →
      cornerLR F x0 y0 ddx ddy bins icx icy s =
        s.fld (icx * bins + bins) (icy * bins)) ∧
    (¬ (icx = 0 ∧ icy = 0) →
      cornerLL F x0 y0 ddx ddy bins icx icy s =
        s.fld (icx * bins) (icy * bins)) := by
  refine ⟨rfl, ?_, ?_, ?_, ?_⟩
  · rw [(blockStep_corner_fld F x0 y0 ddx ddy bins hb s icx icy).2.2.2]
    rfl
  · intro h
    rw [cornerUL, if_neg h]
  · intro h
    rw [cornerLR, if_neg h]
  · intro h
    rw [cornerLL, if_neg h]

/-- Witness for C5 at `bins = 1`, block `(1, 1)`. -/
theorem c5_scheme2_corner_sources_witness :
    0 < 1 ∧
    ((blockStep (fun x y => (x, y)) 0 0 1 1 1 ⟨zeroField, []⟩ 1 1).calls =
        [] ++
          ([(xcoord 0 1 (1 * 1 + 1), xcoord 0 1 (1 * 1 + 1))] ++
            (if (1 : ℕ) = 0 then [(xcoord 0 1 (1 * 1), xcoord 0 1 (1 * 1 + 1))]
            else []) ++
            (if (1 : ℕ) = 0 then [(xcoord 0 1 (1 * 1 + 1), xcoord 0 1 (1 * 1))]
            else []) ++
            (if (1 : ℕ) = 0 ∧ (1 : ℕ) = 0 then
              [(xcoord 0 1 (1 * 1), xcoord 0 1 (1 * 1))]
            else [])) ∧
      (blockStep (fun x y => (x, y)) 0 0 1 1 1 ⟨zeroField, []⟩ 1 1).fld
          (1 * 1 + 1) (1 * 1 + 1) =
        (xcoord 0 1 (1 * 1 + 1), xcoord 0 1 (1 * 1 + 1)) ∧
      ((1 : ℕ) ≠ 0 →
        cornerUL (fun x y => (x, y)) 0 0 1 1 1 1 1 ⟨zeroField, []⟩ =
          S2State.fld ⟨zeroField, []⟩ (1 * 1) (1 * 1 + 1)) ∧
      ((1 : ℕ) ≠ 0 →
        cornerLR (fun x y => (x, y)) 0 0 1 1 1 1 1 ⟨zeroField, []⟩ =
          S2State.fld ⟨zeroField, []⟩ (1 * 1 + 1) (1 * 1)) ∧
      (¬ ((1 : ℕ) = 0 ∧ (1 : ℕ) = 0) →
        cornerLL (fun x y => (x, y)) 0 0 1 1 1 1 1 ⟨zeroField, []⟩ =
          S2State.fld ⟨zeroField, []⟩ (1 * 1) (1 * 1))) :=
  ⟨Nat.one_pos,
    c5_scheme2_corner_sources (fun x y => (x, y)) 0 0 1 1 1 Nat.one_pos
      ⟨zeroField, []⟩ 1 1⟩

/-- C6: every grid point of a block, edges and corners included, is
assigned the standard bilinear interpolation of the block's four corner
values at fractional offsets `dx/bins, dy/bins ∈ [0,1]`, and those offsets
are exactly the entries of the precomputed `xfrac`/`yfrac` tables, which
depend only on `bins`, not on the block indices. -/
theorem c6_scheme2_bilinear_fill (F : Defang) (x0 y0 ddx ddy : ℝ)
    (bins : ℕ) (hb : 0 < bins) (s : S2State) (icx icy dx dy : ℕ)
    (hdx : dx ≤ bins) (hdy : dy ≤ bins) :
    (blockStep F x0 y0 ddx ddy bins s icx icy).fld (icx * bins + dx)
        (icy * bins + dy) =
      (bilin (cornerLL F x0 y0 ddx ddy bins icx icy s).1
          (cornerLR F x0 y0 ddx ddy bins icx icy s).1
          (cornerUL F x0 y0 ddx ddy bins icx icy s).1
          (cornerUR F x0 y0 ddx ddy bins icx icy).1
          ((dx : ℝ) / (bins : ℝ)) ((dy : ℝ) / (bins : ℝ)),
        bilin (cornerLL F x0 y0 ddx ddy bins icx icy s).2
          (cornerLR F x0 y0 ddx ddy bins icx icy s).2
          (cornerUL F x0 y0 ddx ddy bins icx icy s).2
          (cornerUR F x0 y0 ddx ddy bins icx icy).2
          ((dx : ℝ) / (bins : ℝ)) ((dy : ℝ) / (bins : ℝ))) ∧
    xfrac bins (bins + 1) (dx + dy * (bins + 1)) = (dx : ℝ) / (bins : ℝ) ∧
    yfrac bins (bins + 1) (dx + dy * (bins + 1)) = (dy : ℝ) / (bins : ℝ) ∧
    0 ≤ (dx : ℝ) / (bins : ℝ) ∧ (dx : ℝ) / (bins : ℝ) ≤ 1 ∧
    0 ≤ (dy : ℝ) / (bins : ℝ) ∧ (dy : ℝ) / (bins : ℝ) ≤ 1 := by
  have hbR : (0 : ℝ) < (bins : ℝ) := by exact_mod_cast hb
  refine ⟨?_, ?_, ?_, ?_, ?_, ?_, ?_⟩
  · simp only [blockStep]
    rw [blockWrite_eval, if_pos ⟨by omega, by omega, by omega, by omega⟩,
      Nat.add_sub_cancel_left, Nat.add_sub_cancel_left]
  · unfold xfrac xind
    rw [Nat.add_mul_mod_self_right, Nat.mod_eq_of_lt (by omega)]
  · unfold yfrac yind
    rw [Nat.add_mul_div_right _ _ (Nat.succ_pos bins),
      Nat.div_eq_of_lt (by omega), Nat.zero_add]
  · exact div_nonneg (Nat.cast_nonneg dx) (le_of_lt hbR)
  · rw [div_le_one hbR]
    exact_mod_cast hdx
  · exact div_nonneg (Nat.cast_nonneg dy) (le_of_lt hbR)
  · rw [div_le_one hbR]
    exact_mod_cast hdy

/-- Witness for C6 at `bins = 2`, block `(0, 0)`, offset `(1, 1)`. -/
theorem c6_scheme2_bilinear_fill_witness :
    (0 < 2 ∧ 1 ≤ 2 ∧ 1 ≤ 2) ∧
    ((blockStep (fun x y => (x, y)) 0 0 1 1 2 ⟨zeroField, []⟩ 0 0).fld
        (0 * 2 + 1) (0 * 2 + 1) =
      (bilin (cornerLL (fun x y => (x, y)) 0 0 1 1 2 0 0 ⟨zeroField, []⟩).1
          (cornerLR (fun x y => (x, y)) 0 0 1 1 2 0 0 ⟨zeroField, []⟩).1
          (cornerUL (fun x y => (x, y)) 0 0 1 1 2 0 0 ⟨zeroField, []⟩).1
          (cornerUR (fun x y => (x, y)) 0 0 1 1 2 0 0).1
          (((1 : ℕ) : ℝ) / ((2 : ℕ) : ℝ)) (((1 : ℕ) : ℝ) / ((2 : ℕ) : ℝ)),
        bilin (cornerLL (fun x y => (x, y)) 0 0 1 1 2 0 0 ⟨zeroField, []⟩).2
          (cornerLR (fun x y => (x, y)) 0 0 1 1 2 0 0 ⟨zeroField, []⟩).2
          (cornerUL (fun x y => (x, y)) 0 0 1 1 2 0 0 ⟨zeroField, []⟩).2
          (cornerUR (fun x y => (x, y)) 0 0 1 1 2 0 0).2
          (((1 : ℕ) : ℝ) / ((2 : ℕ) : ℝ))
          (((1 : ℕ) : ℝ) / ((2 : ℕ) : ℝ)))) :=
  ⟨⟨by omega, by omega, by omega⟩,
    (c6_scheme2_bilinear_fill (fun x y => (x, y)) 0 0 1 1 2 (by omega)
      ⟨zeroField, []⟩ 0 0 1 1 (by omega) (by omega)).1⟩

/-- Membership in the block tiling: exactly the pairs below `(ncx, ncy)`. -/
lemma mem_blockList (ncx ncy p q : ℕ) :
    (p, q) ∈ blockList ncx ncy ↔ p < ncx ∧ q < ncy := by
  unfold blockList
  rw [List.mem_flatMap]
  constructor
  · rintro ⟨a, ha, hm⟩
    rw [List.mem_range] at ha
    rw [List.mem_map] at hm
    obtain ⟨b, hb, he⟩ := hm
    rw [List.mem_range] at hb
    obtain ⟨rfl, rfl⟩ := Prod.mk.injEq .. ▸ he
    exact ⟨ha, hb⟩
  · rintro ⟨h1, h2⟩
    exact ⟨p, List.mem_range.mpr h1, List.mem_map.mpr
      ⟨q, List.mem_range.mpr h2, rfl⟩⟩

/-- The tiling has exactly `ncx * ncy` blocks. -/
lemma length_blockList (ncx ncy : ℕ) :
    (blockList ncx ncy).length = ncx * ncy := by
  induction ncx with
  | zero => simp [blockList]
  | succ n ih =>
    unfold blockList at ih ⊢
    rw [List.range_succ, List.flatMap_append, List.length_append, ih]
    simp [Nat.succ_mul]

/-- Processing any collection of valid blocks never writes a cell beyond
index `ncx*bins` in x or `ncy*bins` in y. -/
lemma scheme2_foldl_outside (F : Defang) (x0 y0 ddx ddy : ℝ)
    (bins ncx ncy : ℕ) (l : List (ℕ × ℕ)) (s : S2State) (i j : ℕ)
    (hij : ncx * bins < i ∨ ncy * bins < j) :
    (∀ b ∈ l, b.1 < ncx ∧ b.2 < ncy) →
    (l.foldl (fun s b => blockStep F x0 y0 ddx ddy bins s b.1 b.2) s).fld
        i j = s.fld i j := by
  induction l generalizing s with
  | nil => intro _; rfl
  | cons b l ih =>
    intro hl
    rw [List.foldl_cons, ih _ (fun b hb => hl b (List.mem_cons_of_mem _ hb))]
    obtain ⟨h1, h2⟩ := hl b (List.mem_cons_self b l)
    simp only [blockStep]
    rw [blockWrite_eval, if_neg]
    rintro ⟨hc1, hc2, hc3, hc4⟩
    have e1 : (b.1 + 1) * bins ≤ ncx * bins :=
      Nat.mul_le_mul_right _ (by omega)
    have e2 : (b.2 + 1) * bins ≤ ncy * bins :=
      Nat.mul_le_mul_right _ (by omega)
    have e3 : (b.1 + 1) * bins = b.1 * bins + bins := Nat.succ_mul _ _
    have e4 : (b.2 + 1) * bins = b.2 * bins + bins := Nat.succ_mul _ _
    omega

/-- C7: scheme 2 covers exactly `ncx = (nx-1)/bins` by `ncy = (ny-1)/bins`
blocks (integer division), never writes a cell with x-index above
`ncx*bins` or y-index above `ncy*bins` (such cells keep their prior
contents), and when `nx-1 < bins` the whole caller-provided field is left
unchanged. -/
theorem c7_scheme2_frame (F : Defang) (xr yr : ℝ × ℝ) (nx ny bins : ℕ)
    (_hb : 0 < bins) :
    ((blockList ((nx - 1) / bins) ((ny - 1) / bins)).length =
      ((nx - 1) / bins) * ((ny - 1) / bins)) ∧
    (∀ p q, (p, q) ∈ blockList ((nx - 1) / bins) ((ny - 1) / bins) ↔
      p < (nx - 1) / bins ∧ q < (ny - 1) / bins) ∧
    (∀ defarr : Field, ∀ i j : ℕ,
      ((nx - 1) / bins) * bins < i ∨ ((ny - 1) / bins) * bins < j →
      (scheme2Run F xr yr nx ny bins defarr).fld i j = defarr i j) ∧
    (nx - 1 < bins → ∀ defarr : Field, ∀ i j : ℕ,
      (scheme2Run F xr yr nx ny bins defarr).fld i j = defarr i j) := by
  have hrun : ∀ defarr : Field, scheme2Run F xr yr nx ny bins defarr =
      (blockList ((nx - 1) / bins) ((ny - 1) / bins)).foldl
        (fun s b => blockStep F xr.1 yr.1 ((xr.2 - xr.1) / (nx : ℝ))
          ((yr.2 - yr.1) / (ny : ℝ)) bins s b.1 b.2)
        ⟨defarr, []⟩ := fun _ => rfl
  refine ⟨length_blockList _ _, fun p q => mem_blockList _ _ p q, ?_, ?_⟩
  · intro defarr i j hij
    rw [hrun]
    exact scheme2_foldl_outside F xr.1 yr.1 _ _ bins _ _ _ _ i j hij
      (fun b hb => by
        obtain ⟨p, q⟩ := b
        exact (mem_blockList _ _ p q).mp hb)
  · intro hsmall defarr i j
    have hz : (nx - 1) / bins = 0 := Nat.div_eq_of_lt hsmall
    rw [hrun, hz]
    rfl

/-- Witness for C7 at `nx = ny = 5`, `bins = 2` (so `ncx = ncy = 2`),
checking a cell beyond the covered `4 × 4` corner region. -/
theorem c7_scheme2_frame_witness :
    0 < 2 ∧
    (((blockList ((5 - 1) / 2) ((5 - 1) / 2)).length =
        ((5 - 1) / 2) * ((5 - 1) / 2)) ∧
      (∀ p q, (p, q) ∈ blockList ((5 - 1) / 2) ((5 - 1) / 2) ↔
        p < (5 - 1) / 2 ∧ q < (5 - 1) / 2) ∧
      (∀ defarr : Field, ∀ i j : ℕ,
        ((5 - 1) / 2) * 2 < i ∨ ((5 - 1) / 2) * 2 < j →
        (scheme2Run (fun x y => (x, y)) (0, 5) (0, 5) 5 5 2 defarr).fld i j =
          defarr i j) ∧
      ((5 : ℕ) - 1 < 2 → ∀ defarr : Field, ∀ i j : ℕ,
        (scheme2Run (fun x y => (x, y)) (0, 5) (0, 5) 5 5 2 defarr).fld i j =
          defarr i j)) :=
  ⟨by omega, c7_scheme2_frame (fun x y => (x, y)) (0, 5) (0, 5) 5 5 2
    (by omega)⟩

/-! ### Cache coherence of the scheme-2 corner reuse (C4) -/

lemma mem_corners (icx icy a b : ℕ) :
    (a, b) ∈ corners icx icy ↔
      (a = icx ∧ b = icy) ∨ (a = icx + 1 ∧ b = icy) ∨
        (a = icx ∧ b = icy + 1) ∨ (a = icx + 1 ∧ b = icy + 1) := by
  simp [corners, Prod.ext_iff]

/-- A corner cell lying inside the written region of block `(icx, icy)` is
one of that block's four corners. -/
lemma region_corner (bins : ℕ) (hb : 0 < bins) (icx icy a b : ℕ)
    (hc : icx * bins ≤ a * bins ∧ a * bins ≤ icx * bins + bins ∧
      icy * bins ≤ b * bins ∧ b * bins ≤ icy * bins + bins) :
    (a, b) ∈ corners icx icy := by
  obtain ⟨h1, h2, h3, h4⟩ := hc
  have ha1 : icx ≤ a := by
    by_contra hlt
    push_neg at hlt
    have hm : (a + 1) * bins ≤ icx * bins := Nat.mul_le_mul_right _ hlt
    have e : (a + 1) * bins = a * bins + bins := Nat.succ_mul _ _
    omega
  have ha2 : a ≤ icx + 1 := by
    by_contra hgt
    push_neg at hgt
    have hm : (icx + 1 + 1) * bins ≤ a * bins := Nat.mul_le_mul_right _ hgt
    have e1 : (icx + 1 + 1) * bins = (icx + 1) * bins + bins :=
      Nat.succ_mul _ _
    have e2 : (icx + 1) * bins = icx * bins + bins := Nat.succ_mul _ _
    omega
  have hb1 : icy ≤ b := by
    by_contra hlt
    push_neg at hlt
    have hm : (b + 1) * bins ≤ icy * bins := Nat.mul_le_mul_right _ hlt
    have e : (b + 1) * bins = b * bins + bins := Nat.succ_mul _ _
    omega
  have hb2 : b ≤ icy + 1 := by
    by_contra hgt
    push_neg at hgt
    have hm : (icy + 1 + 1) * bins ≤ b * bins := Nat.mul_le_mul_right _ hgt
    have e1 : (icy + 1 + 1) * bins = (icy + 1) * bins + bins :=
      Nat.succ_mul _ _
    have e2 : (icy + 1) * bins = icy * bins + bins := Nat.succ_mul _ _
    omega
  rw [mem_corners]
  omega

/-- Under the invariant, all four corner values used by block `(icx, icy)`
— whether freshly evaluated or read back from the field — equal the fresh
adapter values at the corner coordinates. -/
lemma corner_fresh_of_inv (F : Defang) (x0 y0 ddx ddy : ℝ)
    (bins ncy icx icy : ℕ) (hicy : icy < ncy) (s : S2State)
    (h : Inv F x0 y0 ddx ddy bins ncy icx icy s) :
    cornerUL F x0 y0 ddx ddy bins icx icy s =
      F (xcoord x0 ddx (icx * bins)) (xcoord y0 ddy (icy * bins + bins)) ∧
    cornerLR F x0 y0 ddx ddy bins icx icy s =
      F (xcoord x0 ddx (icx * bins + bins)) (xcoord y0 ddy (icy * bins)) ∧
    cornerLL F x0 y0 ddx ddy bins icx icy s =
      F (xcoord x0 ddx (icx * bins)) (xcoord y0 ddy (icy * bins)) := by
  refine ⟨?_, ?_, ?_⟩
  · unfold cornerUL
    by_cases hx : icx = 0
    · rw [if_pos hx]
    · rw [if_neg hx]
      have hmem : (icx, icy + 1) ∈ corners (icx - 1) icy := by
        rw [mem_corners]
        omega
      have hc := h (icx - 1) icy icx (icy + 1) (Or.inl (by omega)) hicy hmem
      unfold CornerFresh at hc
      rw [Nat.succ_mul] at hc
      exact hc
  · unfold cornerLR
    by_cases hy : icy = 0
    · rw [if_pos hy]
    · rw [if_neg hy]
      have hmem : (icx + 1, icy) ∈ corners icx (icy - 1) := by
        rw [mem_corners]
        omega
      have hc := h icx (icy - 1) (icx + 1) icy (Or.inr ⟨rfl, by omega⟩)
        (by omega) hmem
      unfold CornerFresh at hc
      rw [Nat.succ_mul] at hc
      exact hc
  · unfold cornerLL
    by_cases hxy : icx = 0 ∧ icy = 0
    · rw [if_pos hxy]
    · rw [if_neg hxy]
      by_cases hy : icy = 0
      · have hx : icx ≠ 0 := fun hx => hxy ⟨hx, hy⟩
        have hmem : (icx, icy) ∈ corners (icx - 1) icy := by
          rw [mem_corners]
          omega
        exact h (icx - 1) icy icx icy (Or.inl (by omega)) hicy hmem
      · have hmem : (icx, icy) ∈ corners icx (icy - 1) := by
          rw [mem_corners]
          omega
        exact h icx (icy - 1) icx icy (Or.inr ⟨rfl, by omega⟩)
          (by omega) hmem

/-- Processing one more block preserves the invariant and adds the
freshness of the current block's corners. -/
lemma blockStep_inv (F : Defang) (x0 y0 ddx ddy : ℝ) (bins : ℕ)
    (hb : 0 < bins) (ncy icx icy : ℕ) (hicy : icy < ncy) (s : S2State)
    (h : Inv F x0 y0 ddx ddy bins ncy icx icy s) :
    Inv F x0 y0 ddx ddy bins ncy icx (icy + 1)
      (blockStep F x0 y0 ddx ddy bins s icx icy) := by
  obtain ⟨hUL, hLR, hLL⟩ :=
    corner_fresh_of_inv F x0 y0 ddx ddy bins ncy icx icy hicy s h
  obtain ⟨cLL, cLR, cUL, cUR⟩ :=
    blockStep_corner_fld F x0 y0 ddx ddy bins hb s icx icy
  have hcorner : ∀ a b, (a, b) ∈ corners icx icy →
      CornerFresh F x0 y0 ddx ddy bins
        (blockStep F x0 y0 ddx ddy bins s icx icy) a b := by
    intro a b hmem
    unfold CornerFresh
    rcases (mem_corners icx icy a b).mp hmem with
      ⟨rfl, rfl⟩ | ⟨rfl, rfl⟩ | ⟨rfl, rfl⟩ | ⟨rfl, rfl⟩
    · rw [cLL, hLL]
    · rw [Nat.succ_mul icx bins, cLR, hLR]
    · rw [Nat.succ_mul icy bins, cUL, hUL]
    · rw [Nat.succ_mul icx bins, Nat.succ_mul icy bins, cUR]
      rfl
  intro p q a b hlex hq hmem
  by_cases hcur : (a, b) ∈ corners icx icy
  · exact hcorner a b hcur
  · have hlex' : p < icx ∨ (p = icx ∧ q < icy) := by
      rcases hlex with h1 | ⟨rfl, h2⟩
      · exact Or.inl h1
      · rcases Nat.lt_or_ge q icy with h3 | h3
        · exact Or.inr ⟨rfl, h3⟩
        · have hqe : q = icy := by omega
          subst hqe
          exact absurd hmem hcur
    have hold := h p q a b hlex' hq hmem
    unfold CornerFresh at hold ⊢
    simp only [blockStep]
    rw [blockWrite_eval, if_neg (fun hc =>
      hcur (region_corner bins hb icx icy a b hc))]
    exact hold

/-- Peeling the last processed block off the before-list. -/
lemma foldl_blocksBefore_succ {α : Type} (step : α → ℕ × ℕ → α) (init : α)
    (ncy icx icy : ℕ) :
    (blocksBefore ncy icx (icy + 1)).foldl step init =
      step ((blocksBefore ncy icx icy).foldl step init) (icx, icy) := by
  unfold blocksBefore
  rw [List.range_succ, List.map_append, ← List.append_assoc,
    List.foldl_append]
  rfl

/-- Starting a new column continues from the end of the previous one. -/
lemma foldl_blocksBefore_col {α : Type} (step : α → ℕ × ℕ → α) (init : α)
    (ncy icx : ℕ) :
    (blocksBefore ncy (icx + 1) 0).foldl step init =
      (blocksBefore ncy icx ncy).foldl step init := by
  have he : blocksBefore ncy (icx + 1) 0 = blocksBefore ncy icx ncy := by
    unfold blocksBefore
    rw [List.range_succ, List.flatMap_append, List.flatMap_singleton]
    simp
  rw [he]

/-- The invariant holds at every intermediate state of the scheme-2 run. -/
lemma scheme2Upto_inv (F : Defang) (xr yr : ℝ × ℝ) (nx ny bins : ℕ)
    (hb : 0 < bins) (defarr : Field) :
    ∀ icx icy, icy ≤ (ny - 1) / bins →
      Inv F xr.1 yr.1 ((xr.2 - xr.1) / (nx : ℝ)) ((yr.2 - yr.1) / (ny : ℝ))
        bins ((ny - 1) / bins) icx icy
        (scheme2Upto F xr yr nx ny bins defarr icx icy) := by
  have hupto : ∀ icx icy,
      scheme2Upto F xr yr nx ny bins defarr icx icy =
        (blocksBefore ((ny - 1) / bins) icx icy).foldl
          (fun s b => blockStep F xr.1 yr.1 ((xr.2 - xr.1) / (nx : ℝ))
            ((yr.2 - yr.1) / (ny : ℝ)) bins s b.1 b.2)
          ⟨defarr, []⟩ := fun _ _ => rfl
  intro icx
  induction icx with
  | zero =>
    intro icy
    induction icy with
    | zero =>
      intro _ p q a b hlex _ _
      rcases hlex with h1 | ⟨_, h2⟩ <;> omega
    | succ m ihm =>
      intro hle
      rw [hupto, foldl_blocksBefore_succ, ← hupto]
      exact blockStep_inv F xr.1 yr.1 _ _ bins hb _ 0 m (by omega) _
        (ihm (by omega))
  | succ n ihn =>
    intro icy
    induction icy with
    | zero =>
      intro _
      have h0 := ihn ((ny - 1) / bins) (le_refl _)
      rw [hupto, foldl_blocksBefore_col, ← hupto]
      intro p q a b hlex hq hmem
      refine h0 p q a b ?_ hq hmem
      rcases hlex with h1 | ⟨rfl, h2⟩
      · rcases Nat.lt_or_ge p n with h3 | h3
        · exact Or.inl h3
        · have hpe : p = n := by omega
          subst hpe
          exact Or.inr ⟨rfl, hq⟩
      · omega
    | succ m ihm =>
      intro hle
      rw [hupto, foldl_blocksBefore_succ, ← hupto]
      exact blockStep_inv F xr.1 yr.1 _ _ bins hb _ (n + 1) m (by omega) _
        (ihm (by omega))

/-- The full processing order splits, at any in-range block, into the
blocks before it and the blocks from it onwards. -/
lemma blockList_decomp (ncx ncy icx icy : ℕ) (hicx : icx < ncx)
    (hicy : icy ≤ ncy) :
    blockList ncx ncy = blocksBefore ncy icx icy ++ blocksFrom ncx ncy icx icy := by
  unfold blockList blocksBefore blocksFrom
  have h1 : ncx = (icx + 1) + (ncx - (icx + 1)) := by omega
  have h2 : ncy = icy + (ncy - icy) := by omega
  have hsplit : (List.range ncy).map (fun b => (icx, b)) =
      (List.range icy).map (fun b => (icx, b)) ++
        (List.range (ncy - icy)).map (fun b => (icx, icy + b)) := by
    conv_lhs => rw [h2, List.range_add]
    rw [List.map_append, List.map_map]
    rfl
  conv_lhs => rw [h1, List.range_add, List.flatMap_append, List.range_succ,
    List.flatMap_append, List.flatMap_singleton]
  rw [hsplit, List.flatMap_map]
  simp only [List.append_assoc, Function.comp]

/-- C4: in scheme 2, every corner value read from the already-filled field
(upper-left when `icx ≠ 0`, lower-right when `icy ≠ 0`, lower-left when
`icx ≠ 0` or `icy ≠ 0`) is numerically identical to a fresh pointwise
evaluation at that corner's coordinates, and after a block is processed
every one of its corner cells holds the fresh adapter value; moreover the
intermediate state used here is genuinely the state of the full scheme-2
run at block `(icx, icy)`. -/
theorem c4_scheme2_cache_coherence (F : Defang) (xr yr : ℝ × ℝ)
    (nx ny bins : ℕ) (hb : 0 < bins) (defarr : Field) (icx icy : ℕ)
    (hicy : icy < (ny - 1) / bins) :
    (icx ≠ 0 →
      (scheme2Upto F xr yr nx ny bins defarr icx icy).fld (icx * bins)
          (icy * bins + bins) =
        F (xcoord xr.1 ((xr.2 - xr.1) / (nx : ℝ)) (icx * bins))
          (xcoord yr.1 ((yr.2 - yr.1) / (ny : ℝ)) (icy * bins + bins))) ∧
    (icy ≠ 0 →
      (scheme2Upto F xr yr nx ny bins defarr icx icy).fld
          (icx * bins + bins) (icy * bins) =
        F (xcoord xr.1 ((xr.2 - xr.1) / (nx : ℝ)) (icx * bins + bins))
          (xcoord yr.1 ((yr.2 - yr.1) / (ny : ℝ)) (icy * bins))) ∧
    (¬ (icx = 0 ∧ icy = 0) →
      (scheme2Upto F xr yr nx ny bins defarr icx icy).fld (icx * bins)
          (icy * bins) =
        F (xcoord xr.1 ((xr.2 - xr.1) / (nx : ℝ)) (icx * bins))
          (xcoord yr.1 ((yr.2 - yr.1) / (ny : ℝ)) (icy * bins))) ∧
    (∀ a b, (a, b) ∈ corners icx icy →
      (scheme2Upto F xr yr nx ny bins defarr icx (icy + 1)).fld (a * bins)
          (b * bins) =
        F (xcoord xr.1 ((xr.2 - xr.1) / (nx : ℝ)) (a * bins))
          (xcoord yr.1 ((yr.2 - yr.1) / (ny : ℝ)) (b * bins))) ∧
    (icx < (nx - 1) / bins →
      scheme2Run F xr yr nx ny bins defarr =
        (blocksFrom ((nx - 1) / bins) ((ny - 1) / bins) icx icy).foldl
          (fun s b => blockStep F xr.1 yr.1 ((xr.2 - xr.1) / (nx : ℝ))
            ((yr.2 - yr.1) / (ny : ℝ)) bins s b.1 b.2)
          (scheme2Upto F xr yr nx ny bins defarr icx icy)) := by
  have hinv := scheme2Upto_inv F xr yr nx ny bins hb defarr icx icy
    (le_of_lt hicy)
  obtain ⟨hUL, hLR, hLL⟩ := corner_fresh_of_inv F xr.1 yr.1
    ((xr.2 - xr.1) / (nx : ℝ)) ((yr.2 - yr.1) / (ny : ℝ)) bins
    ((ny - 1) / bins) icx icy hicy _ hinv
  refine ⟨?_, ?_, ?_, ?_, ?_⟩
  · intro hx
    rw [← hUL, cornerUL, if_neg hx]
  · intro hy
    rw [← hLR, cornerLR, if_neg hy]
  · intro hxy
    rw [← hLL, cornerLL, if_neg hxy]
  · intro a b hmem
    have hinv1 := scheme2Upto_inv F xr yr nx ny bins hb defarr icx (icy + 1)
      (by omega)
    exact hinv1 icx icy a b (Or.inr ⟨rfl, Nat.lt_succ_self icy⟩) hicy hmem
  · intro hicx
    have hrun : scheme2Run F xr yr nx ny bins defarr =
        (blockList ((nx - 1) / bins) ((ny - 1) / bins)).foldl
          (fun s b => blockStep F xr.1 yr.1 ((xr.2 - xr.1) / (nx : ℝ))
            ((yr.2 - yr.1) / (ny : ℝ)) bins s b.1 b.2)
          ⟨defarr, []⟩ := rfl
    rw [hrun, blockList_decomp ((nx - 1) / bins) ((ny - 1) / bins) icx icy
      hicx (le_of_lt hicy), List.foldl_append]
    rfl

/-- Witness for C4 at `bins = 1`, `nx = ny = 3` (so `ncx = ncy = 2`),
block `(1, 1)`, adapter `(x, y) ↦ (x, y)`. -/
theorem c4_scheme2_cache_coherence_witness :
    (0 < 1 ∧ 1 < (3 - 1) / 1) ∧
    (((1 : ℕ) ≠ 0 →
      (scheme2Upto (fun x y => (x, y)) (0, 3) (0, 3) 3 3 1 zeroField 1
          1).fld (1 * 1) (1 * 1 + 1) =
        (xcoord 0 ((3 - 0) / ((3 : ℕ) : ℝ)) (1 * 1),
          xcoord 0 ((3 - 0) / ((3 : ℕ) : ℝ)) (1 * 1 + 1))) ∧
      ((1 : ℕ) ≠ 0 →
        (scheme2Upto (fun x y => (x, y)) (0, 3) (0, 3) 3 3 1 zeroField 1
            1).fld (1 * 1 + 1) (1 * 1) =
          (xcoord 0 ((3 - 0) / ((3 : ℕ) : ℝ)) (1 * 1 + 1),
            xcoord 0 ((3 - 0) / ((3 : ℕ) : ℝ)) (1 * 1))) ∧
      (¬ ((1 : ℕ) = 0 ∧ (1 : ℕ) = 0) →
        (scheme2Upto (fun x y => (x, y)) (0, 3) (0, 3) 3 3 1 zeroField 1
            1).fld (1 * 1) (1 * 1) =
          (xcoord 0 ((3 - 0) / ((3 : ℕ) : ℝ)) (1 * 1),
            xcoord 0 ((3 - 0) / ((3 : ℕ) : ℝ)) (1 * 1))) ∧
      (∀ a b, (a, b) ∈ corners 1 1 →
        (scheme2Upto (fun x y => (x, y)) (0, 3) (0, 3) 3 3 1 zeroField 1
            (1 + 1)).fld (a * 1) (b * 1) =
          (xcoord 0 ((3 - 0) / ((3 : ℕ) : ℝ)) (a * 1),
            xcoord 0 ((3 - 0) / ((3 : ℕ) : ℝ)) (b * 1))) ∧
      (1 < (3 - 1) / 1 →
        scheme2Run (fun x y => (x, y)) (0, 3) (0, 3) 3 3 1 zeroField =
          (blocksFrom ((3 - 1) / 1) ((3 - 1) / 1) 1 1).foldl
            (fun s b => blockStep (fun x y => (x, y)) 0 0
              ((3 - 0) / ((3 : ℕ) : ℝ)) ((3 - 0) / ((3 : ℕ) : ℝ)) 1 s b.1
              b.2)
            (scheme2Upto (fun x y => (x, y)) (0, 3) (0, 3) 3 3 1 zeroField 1
              1))) :=
  ⟨⟨by omega, by omega⟩, by
    simpa using
      c4_scheme2_cache_coherence (fun x y => (x, y)) (0, 3) (0, 3) 3 3 1
        (by omega) zeroField 1 1 (by omega)⟩

/-- C8: for any scheme value outside `{1, 2, 3}` the call reports the
`UnsupportedScheme` error (the line-189 message) non-fatally: it returns
`None` without invoking the pointwise adapter and without mutating any
cell of the caller-provided field. -/
theorem c8_unsupported_scheme (interp : Interp2d) (F : Defang)
    (defarr : Field) (xr yr : ℝ × ℝ) (nx ny : ℕ) (bins : Option ℕ)
    (k : ℤ) (h1 : k ≠ 1) (h2 : k ≠ 2) (h3 : k ≠ 3) :
    (ml_defarr interp F defarr xr yr nx ny (some k) bins).err =
        some MLError.UnsupportedScheme ∧
    (ml_defarr interp F defarr xr yr nx ny (some k) bins).calls = [] ∧
    (ml_defarr interp F defarr xr yr nx ny (some k) bins).defarr = defarr ∧
    (ml_defarr interp F defarr xr yr nx ny (some k) bins).retval = none := by
  unfold ml_defarr
  simp [h1, h2, h3]

/-- Witness for C8 at `scheme = 4`. -/
theorem c8_unsupported_scheme_witness :
    ((4 : ℤ) ≠ 1 ∧ (4 : ℤ) ≠ 2 ∧ (4 : ℤ) ≠ 3) ∧
    ((ml_defarr (fun _ _ _ => 0) (fun _ _ => (0, 0)) zeroField (0, 1) (0, 1)
        2 2 (some 4) none).err = some MLError.UnsupportedScheme ∧
      (ml_defarr (fun _ _ _ => 0) (fun _ _ => (0, 0)) zeroField (0, 1)
        (0, 1) 2 2 (some 4) none).calls = [] ∧
      (ml_defarr (fun _ _ _ => 0) (fun _ _ => (0, 0)) zeroField (0, 1)
        (0, 1) 2 2 (some 4) none).defarr = zeroField ∧
      (ml_defarr (fun _ _ _ => 0) (fun _ _ => (0, 0)) zeroField (0, 1)
        (0, 1) 2 2 (some 4) none).retval = none) :=
  ⟨⟨by decide, by decide, by decide⟩,
    c8_unsupported_scheme (fun _ _ _ => 0) (fun _ _ => (0, 0)) zeroField
      (0, 1) (0, 1) 2 2 none 4 (by decide) (by decide) (by decide)⟩

/-- C10 counterexample: at a concrete successful call (`scheme = 1`), the
Python return value is `None` — the computed field is not handed back as a
return value, contradicting the claim. -/
theorem c10_counterexample :
    (ml_defarr (fun _ _ _ => 0) (fun _ _ => (0, 0)) zeroField (0, 1) (0, 1)
        1 1 (some 1) none).retval = none ∧
    (ml_defarr (fun _ _ _ => 0) (fun _ _ => (0, 0)) zeroField (0, 1) (0, 1)
        1 1 (some 1) none).retval ≠
      some ((ml_defarr (fun _ _ _ => 0) (fun _ _ => (0, 0)) zeroField (0, 1)
        (0, 1) 1 1 (some 1) none).defarr) :=
  ⟨rfl, fun h => Option.noConfusion h⟩

/-- C10 (amended): on every successful call (`scheme` unset or in
`{1, 2, 3}`) the entry point returns `None`; the computed field is
delivered by mutating the caller-provided array in place, whose final
contents are the selected scheme's output. -/
theorem c10_inplace_no_return (interp : Interp2d) (F : Defang)
    (defarr : Field) (xr yr : ℝ × ℝ) (nx ny : ℕ) (bins : Option ℕ)
    (s : Option ℤ)
    (hs : s = none ∨ s = some 1 ∨ s = some 2 ∨ s = some 3) :
    (ml_defarr interp F defarr xr yr nx ny s bins).retval = none ∧
    (ml_defarr interp F defarr xr yr nx ny s bins).err = none ∧
    ((s = none ∨ s = some 1) →
      (ml_defarr interp F defarr xr yr nx ny s bins).defarr =
        (scheme1Run F xr yr nx ny defarr).1) ∧
    (s = some 2 →
      (ml_defarr interp F defarr xr yr nx ny s bins).defarr =
        (scheme2Run F xr yr nx ny (bins.getD 64) defarr).fld) ∧
    (s = some 3 →
      (ml_defarr interp F defarr xr yr nx ny s bins).defarr =
        (scheme3Run interp F xr yr nx ny (bins.getD 64) defarr).defarr) := by
  rcases hs with rfl | rfl | rfl | rfl
  · exact ⟨rfl, rfl, fun _ => rfl, fun h => Option.noConfusion h,
      fun h => Option.noConfusion h⟩
  · exact ⟨rfl, rfl, fun _ => rfl,
      fun h => absurd (Option.some.inj h) (by decide),
      fun h => absurd (Option.some.inj h) (by decide)⟩
  · refine ⟨rfl, rfl, ?_, fun _ => rfl,
      fun h => absurd (Option.some.inj h) (by decide)⟩
    rintro (h | h)
    · exact Option.noConfusion h
    · exact absurd (Option.some.inj h) (by decide)
  · refine ⟨rfl, rfl, ?_,
      fun h => absurd (Option.some.inj h) (by decide), fun _ => rfl⟩
    rintro (h | h)
    · exact Option.noConfusion h
    · exact absurd (Option.some.inj h) (by decide)

/-- Witness for C10 (amended) at `scheme = 1`. -/
theorem c10_inplace_no_return_witness :
    ((some 1 : Option ℤ) = none ∨ (some 1 : Option ℤ) = some 1 ∨
      (some 1 : Option ℤ) = some 2 ∨ (some 1 : Option ℤ) = some 3) ∧
    ((ml_defarr (fun _ _ _ => 0) (fun _ _ => (0, 0)) zeroField (0, 1) (0, 1)
        1 1 (some 1) none).retval = none ∧
      (ml_defarr (fun _ _ _ => 0) (fun _ _ => (0, 0)) zeroField (0, 1)
        (0, 1) 1 1 (some 1) none).err = none ∧
      (((some 1 : Option ℤ) = none ∨ (some 1 : Option ℤ) = some 1) →
        (ml_defarr (fun _ _ _ => 0) (fun _ _ => (0, 0)) zeroField (0, 1)
          (0, 1) 1 1 (some 1) none).defarr =
          (scheme1Run (fun _ _ => (0, 0)) (0, 1) (0, 1) 1 1 zeroField).1) ∧
      ((some 1 : Option ℤ) = some 2 →
        (ml_defarr (fun _ _ _ => 0) (fun _ _ => (0, 0)) zeroField (0, 1)
          (0, 1) 1 1 (some 1) none).defarr =
          (scheme2Run (fun _ _ => (0, 0)) (0, 1) (0, 1) 1 1
            ((none : Option ℕ).getD 64) zeroField).fld) ∧
      ((some 1 : Option ℤ) = some 3 →
        (ml_defarr (fun _ _ _ => 0) (fun _ _ => (0, 0)) zeroField (0, 1)
          (0, 1) 1 1 (some 1) none).defarr =
          (scheme3Run (fun _ _ _ => 0) (fun _ _ => (0, 0)) (0, 1) (0, 1) 1 1
            ((none : Option ℕ).getD 64) zeroField).defarr)) :=
  ⟨Or.inr (Or.inl rfl),
    c10_inplace_no_return (fun _ _ _ => 0) (fun _ _ => (0, 0)) zeroField
      (0, 1) (0, 1) 1 1 none (some 1) (Or.inr (Or.inl rfl))⟩

/-- C9 counterexample: at `nx = ny = 128` with the default `bins = 64` the
coarse grid is `2 × 2` (fewer than `4 × 4`), yet the scheme-3 call reports
no error and proceeds to perform its three interpolant fits. -/
theorem c9_counterexample :
    (128 : ℕ) / 64 < 4 ∧
    (ml_defarr (fun _ _ _ => 0) (fun _ _ => (0, 0)) zeroField (0, 1) (0, 1)
        128 128 (some 3) none).err = none ∧
    (ml_defarr (fun _ _ _ => 0) (fun _ _ => (0, 0)) zeroField (0, 1) (0, 1)
        128 128 (some 3) none).fits.length = 3 :=
  ⟨by norm_num, rfl, rfl⟩

/-- C9 (amended): scheme 3 performs no coarse-grid-size validation at all:
even when the coarse grid has fewer than `4 × 4` points the call reports no
error and unconditionally fits its three interpolants — the first two (the
component-0 ones) to the hard-coded demo data, the third to
`coarse[:,:,1]`; no `InsufficientSamples` failure exists in the code. -/
theorem c9_no_size_validation (interp : Interp2d) (F : Defang)
    (defarr : Field) (xr yr : ℝ × ℝ) (nx ny : ℕ) (bins : Option ℕ)
    (_hsmall : nx / bins.getD 64 < 4 ∨ ny / bins.getD 64 < 4) :
    (ml_defarr interp F defarr xr yr nx ny (some 3) bins).err = none ∧
    (ml_defarr interp F defarr xr yr nx ny (some 3) bins).fits.map
        Fit.kind = ["linear", "cubic", "cubic"] ∧
    (ml_defarr interp F defarr xr yr nx ny (some 3) bins).fits.map Fit.z =
      [fun i j => fvalsDemo i j, fun i j => fvalsDemo i j,
        fun i j => ((scheme1Run F xr yr (nx / bins.getD 64)
          (ny / bins.getD 64) zeroField).1 i j).2] :=
  ⟨rfl, rfl, rfl⟩

/-- Witness for C9 (amended) at `nx = ny = 128`, default `bins`. -/
theorem c9_no_size_validation_witness :
    ((128 : ℕ) / (none : Option ℕ).getD 64 < 4 ∨
      (128 : ℕ) / (none : Option ℕ).getD 64 < 4) ∧
    ((ml_defarr (fun _ _ _ => 0) (fun _ _ => (0, 0)) zeroField (0, 1) (0, 1)
        128 128 (some 3) none).err = none ∧
      (ml_defarr (fun _ _ _ => 0) (fun _ _ => (0, 0)) zeroField (0, 1)
        (0, 1) 128 128 (some 3) none).fits.map Fit.kind =
        ["linear", "cubic", "cubic"] ∧
      (ml_defarr (fun _ _ _ => 0) (fun _ _ => (0, 0)) zeroField (0, 1)
        (0, 1) 128 128 (some 3) none).fits.map Fit.z =
        [fun i j => fvalsDemo i j, fun i j => fvalsDemo i j,
          fun i j => ((scheme1Run (fun _ _ => (0, 0)) (0, 1) (0, 1)
            (128 / (none : Option ℕ).getD 64)
            (128 / (none : Option ℕ).getD 64) zeroField).1 i j).2]) :=
  ⟨Or.inl (by norm_num),
    c9_no_size_validation (fun _ _ _ => 0) (fun _ _ => (0, 0)) zeroField
      (0, 1) (0, 1) 128 128 none (Or.inl (by norm_num))⟩

/-- C2 (code evaluated at the failing input): with `scheme = 3`,
`nx = ny = 640`, default `bins = 64` (a `10 × 10` coarse grid) and the zero
adapter, the z-data of the three fits performed are the demo values, the
demo values again (this second, cubic fit on the coarse `mgrid`
x-coordinates `xc` is the one used for component 0 — line 176 fits
`fvals`, the intended line 175 fitting `coarse[:,:,0]` is commented out),
and `coarse[:,:,1]`; the demo data differs from `coarse[:,:,0]`, and the
fit x-coordinates `xc` used for both cubic fits (an inclusive linspace)
differ from the half-open coarse sample x-coordinates. -/
theorem c2_code_bug :
    (ml_defarr (fun _ _ _ => 0) (fun _ _ => (0, 0)) zeroField (0, 1) (0, 1)
        640 640 (some 3) none).fits.map Fit.z =
      [fun i j => fvalsDemo i j, fun i j => fvalsDemo i j,
        fun i j => ((scheme1Run (fun _ _ => ((0 : ℝ), (0 : ℝ))) (0, 1)
          (0, 1) (640 / 64) (640 / 64) zeroField).1 i j).2] ∧
    (ml_defarr (fun _ _ _ => 0) (fun _ _ => (0, 0)) zeroField (0, 1) (0, 1)
        640 640 (some 3) none).fits.map Fit.xs =
      [fun i _ => demoX i, fun i _ => mgridCoord 0 1 (640 / 64) i,
        fun i _ => mgridCoord 0 1 (640 / 64) i] ∧
    fvalsDemo 9 9 ≠
      ((scheme1Run (fun _ _ => ((0 : ℝ), (0 : ℝ))) (0, 1) (0, 1) (640 / 64)
        (640 / 64) zeroField).1 9 9).1 ∧
    mgridCoord 0 1 (640 / 64) 1 ≠ sampleCoord 0 1 1 (640 / 64) := by
  refine ⟨rfl, rfl, ?_, ?_⟩
  · have hc : ((scheme1Run (fun _ _ => ((0 : ℝ), (0 : ℝ))) (0, 1) (0, 1)
        (640 / 64) (640 / 64) zeroField).1 9 9) = (0, 0) := by
      rw [scheme1Run_fld]
      norm_num
    rw [hc]
    have h45 : demoX 9 = 45 := by
      unfold demoX mgridCoord
      norm_num
    have h18 : demoY 9 = 18 := by
      unfold demoY mgridCoord
      norm_num
    unfold fvalsDemo
    rw [h45, h18]
    unfold funcDemo
    exact mul_ne_zero (by norm_num)
      (Real.exp_ne_zero (-(45 ^ 2 + 18 ^ 2) / (2 * 10 ^ 2)))
  · unfold mgridCoord sampleCoord
    norm_num

/-- C3 (round-trip law fails): take `xr = (-45, 45)`, `yr = (-18, 18)`,
`nx = ny = 640`, default `bins = 64` (so the coarse grid is `10 × 10` and
its sample `(0,0)` coincides with the fine grid point `(0,0)`), and the
zero adapter.  For any interpolant constructor that does reproduce its
control data at the control coordinates (the defining property of a spline
interpolant), the refined component-0 value at the coincident point is the
demo function's value, not the coarse field value. -/
theorem c3_roundtrip_fails (interp : Interp2d)
    (hI : ∀ i j : ℕ, i < 10 → j < 10 →
      interp ⟨fun i _ => demoX i, fun _ j => demoY j,
          fun i j => fvalsDemo i j, "cubic"⟩ (demoX i) (demoY j) =
        fvalsDemo i j) :
    fineCoord (-45) 45 640 0 = sampleCoord (-45) 45 0 (640 / 64) ∧
    fineCoord (-18) 18 640 0 = sampleCoord (-18) 18 0 (640 / 64) ∧
    ((ml_defarr interp (fun _ _ => (0, 0)) zeroField (-45, 45) (-18, 18)
        640 640 (some 3) none).defarr 0 0).1 ≠
      ((scheme1Run (fun _ _ => ((0 : ℝ), (0 : ℝ))) (-45, 45) (-18, 18)
        (640 / 64) (640 / 64) zeroField).1 0 0).1 := by
  have e1 : fineCoord (-45 : ℝ) 45 640 0 = demoX 0 := by
    unfold fineCoord demoX mgridCoord
    norm_num
  have e2 : fineCoord (-18 : ℝ) 18 640 0 = demoY 0 := by
    unfold fineCoord demoY mgridCoord
    norm_num
  refine ⟨?_, ?_, ?_⟩
  · unfold fineCoord sampleCoord
    norm_num
  · unfold fineCoord sampleCoord
    norm_num
  · have hred : ((ml_defarr interp (fun _ _ => (0, 0)) zeroField (-45, 45)
        (-18, 18) 640 640 (some 3) none).defarr 0 0).1 =
        interp ⟨fun i _ => demoX i, fun _ j => demoY j,
            fun i j => fvalsDemo i j, "cubic"⟩
          (fineCoord (-45) 45 640 0) (fineCoord (-18) 18 640 0) := rfl
    have hc : ((scheme1Run (fun _ _ => ((0 : ℝ), (0 : ℝ))) (-45, 45)
        (-18, 18) (640 / 64) (640 / 64) zeroField).1 0 0) = (0, 0) := by
      rw [scheme1Run_fld]
      norm_num
    rw [hred, e1, e2, hI 0 0 (by norm_num) (by norm_num), hc]
    have h45 : demoX 0 = -45 := by
      unfold demoX mgridCoord
      norm_num
    have h18 : demoY 0 = -18 := by
      unfold demoY mgridCoord
      norm_num
    unfold fvalsDemo
    rw [h45, h18]
    unfold funcDemo
    exact mul_ne_zero (by norm_num)
      (Real.exp_ne_zero (-((-45) ^ 2 + (-18) ^ 2) / (2 * 10 ^ 2)))

/-- Witness for C3: the analytic demo function itself interpolates the demo
control data exactly, so it discharges the interpolation hypothesis. -/
theorem c3_roundtrip_fails_witness :
    (∀ i j : ℕ, i < 10 → j < 10 →
      (fun (_ : Fit) (x y : ℝ) => funcDemo x y)
          ⟨fun i _ => demoX i, fun _ j => demoY j,
            fun i j => fvalsDemo i j, "cubic"⟩ (demoX i) (demoY j) =
        fvalsDemo i j) ∧
    (fineCoord (-45) 45 640 0 = sampleCoord (-45) 45 0 (640 / 64) ∧
      fineCoord (-18) 18 640 0 = sampleCoord (-18) 18 0 (640 / 64) ∧
      ((ml_defarr (fun (_ : Fit) (x y : ℝ) => funcDemo x y)
          (fun _ _ => (0, 0)) zeroField (-45, 45) (-18, 18) 640 640 (some 3)
          none).defarr 0 0).1 ≠
        ((scheme1Run (fun _ _ => ((0 : ℝ), (0 : ℝ))) (-45, 45) (-18, 18)
          (640 / 64) (640 / 64) zeroField).1 0 0).1) :=
  ⟨fun _ _ _ _ => rfl,
    c3_roundtrip_fails (fun (_ : Fit) (x y : ℝ) => funcDemo x y)
      (fun _ _ _ _ => rfl)⟩

end

end Mules
